import Mathlib

/-!
Verification of the natural-language specification of Replibyte's `LocalDisk`
datastore (`src/replibyte/src/datastore/local_disk.rs`) against a shallow
embedding of that code.

The embedding models the on-disk state under the datastore root explicitly:
the optional catalog file plus a map from backup-directory names to chunk
files.  Pieces of the repository that are not in the given sources (the
`Backup`/`IndexFile` structs, `find_backup`, the `compress`/`encrypt`
transform pair and the retention dispatcher in `datastore/mod.rs`) are
modelled from the spec, and are marked as such in their doc comments.
-/

namespace Replibyte

/-- Raw byte buffers (`types::Bytes` in the source); bytes are modelled as `Nat`. -/
abbrev Bytes := List Nat

/-- Modelled from the spec: the `Backup` record (declared in the missing
`datastore/mod.rs`); field names and types follow spec section 6 and every use in
`local_disk.rs`. -/
structure Backup where
  directory_name : String
  size : Nat
  created_at : Nat
  compressed : Bool
  encrypted : Bool
deriving Repr, DecidableEq

/-- Modelled from the spec: the catalog (`IndexFile` in the missing
`datastore/mod.rs`), a single array field `backups`. -/
structure IndexFile where
  backups : List Backup
deriving Repr, DecidableEq

/-- The configuration fields of the `LocalDisk` struct.  The `dir` root path is
left implicit: an `Fs` value below stands for the contents of that root. -/
structure LocalDisk where
  dump_name : String
  enable_compression : Bool
  encryption_key : Option String
deriving Repr, DecidableEq

/-- Modelled from the spec: the byte-transform pair (`compress`/`decompress`,
`encrypt`/`decrypt`, declared in the missing `datastore/mod.rs`) as abstract
functions; the engine only sequences them. -/
structure Transforms where
  compress : Bytes → Bytes
  decompress : Bytes → Bytes
  encrypt : String → Bytes → Bytes
  decrypt : String → Bytes → Bytes

/-- The identity transform pair, used for concrete evaluations; it satisfies the
round-trip assumptions trivially. -/
def Tid : Transforms := ⟨fun x => x, fun x => x, fun _ x => x, fun _ x => x⟩

/-- The on-disk state under the datastore root: the catalog file (absent before
`init`) and the backup directories, each holding chunk files `(part, bytes)`.
Chunk lists are kept sorted by part number: directory enumeration is modelled
as sorted-by-chunk-number order. -/
structure Fs where
  indexFile : Option IndexFile
  dirs : List (String × List (Nat × Bytes))
deriving Repr, DecidableEq

/-- Operation outcomes.  `notFound` and `ioError` model returned
`std::io::Error` values; `panicked` models a Rust panic (such as
`Option::unwrap` on `None`), which aborts the process instead of returning. -/
inductive Err where
  | notFound
  | ioError
  | panicked
deriving Repr, DecidableEq

/-- Look a backup directory up by name (the filesystem path lookup). -/
def dirLookup (ds : List (String × List (Nat × Bytes))) (name : String) :
    Option (List (Nat × Bytes)) :=
  (ds.find? (fun e => e.1 == name)).map Prod.snd

/-- Write chunk file `part` into a directory: overwrite the chunk with that
number if present, otherwise insert it, keeping the list sorted by part. -/
def insertChunk : List (Nat × Bytes) → Nat → Bytes → List (Nat × Bytes)
  | [], part, data => [(part, data)]
  | (p, d) :: rest, part, data =>
    if part < p then (part, data) :: (p, d) :: rest
    else if part = p then (part, data) :: rest
    else (p, d) :: insertChunk rest part data

/-- Create-directory-if-needed plus chunk-file write: update the directory named
`name`, creating it when absent. -/
def insertDir : List (String × List (Nat × Bytes)) → String → Nat → Bytes →
    List (String × List (Nat × Bytes))
  | [], name, part, data => [(name, insertChunk [] part data)]
  | (n, cs) :: rest, name, part, data =>
    if n = name then (n, insertChunk cs part data) :: rest
    else (n, cs) :: insertDir rest name part data

/-- `remove_dir_all` on a backup directory (assuming it exists). -/
def removeDir (ds : List (String × List (Nat × Bytes))) (name : String) :
    List (String × List (Nat × Bytes)) :=
  ds.filter (fun e => e.1 != name)

/-- `LocalDisk::index_file` (lines 51-67): read and parse the catalog file;
an absent file is an I/O error. -/
def index_file (fs : Fs) : Except Err IndexFile :=
  match fs.indexFile with
  | none => Except.error Err.ioError
  | some idx => Except.ok idx

/-- `LocalDisk::write_index_file` (lines 69-82): truncate-and-rewrite the
catalog file. -/
def write_index_file (fs : Fs) (idx : IndexFile) : Fs :=
  { fs with indexFile := some idx }

/-- `LocalDisk::create_index_file` (lines 31-40): return the existing catalog,
or persist and return an empty one when reading fails. -/
def create_index_file (fs : Fs) : Except Err IndexFile × Fs :=
  match index_file fs with
  | Except.ok idx => (Except.ok idx, fs)
  | Except.error _ => (Except.ok ⟨[]⟩, write_index_file fs ⟨[]⟩)

/-- `Connector::init` for `LocalDisk` (lines 44-47). -/
def init (fs : Fs) : Except Err Unit × Fs :=
  ((create_index_file fs).1.map (fun _ => ()), (create_index_file fs).2)

/-- The write-path transform sequencing of `LocalDisk::write` lines 85-96:
compress when enabled, then encrypt when a key is configured. -/
def transformData (T : Transforms) (ld : LocalDisk) (data : Bytes) : Bytes :=
  let d1 := if ld.enable_compression then T.compress data else data
  match ld.encryption_key with
  | some key => T.encrypt key d1
  | none => d1

/-- The `backup.size = backup.size + data_size` branch of `LocalDisk::write`:
add `ds` to the size of the first record named `name`. -/
def updateFirst : List Backup → String → Nat → List Backup
  | [], _, _ => []
  | b :: rest, name, ds =>
    if b.directory_name == name then { b with size := b.size + ds } :: rest
    else b :: updateFirst rest name ds

/-- The catalog update of `LocalDisk::write` lines 117-143: locate the first
record named `name` (falling back to a fresh zero-size record); when the located
record has size 0 — the code's test for "it's a new backup" — push a fresh
record of size `ds` stamped with `now` and the current configuration flags,
otherwise add `ds` to the located record's size in place. -/
def writeBackups (backups : List Backup) (name : String) (ds now : Nat)
    (comp enc : Bool) : List Backup :=
  match backups.find? (fun b => b.directory_name == name) with
  | none => backups ++ [⟨name, ds, now, comp, enc⟩]
  | some b =>
    if b.size == 0 then backups ++ [⟨name, ds, now, comp, enc⟩]
    else updateFirst backups name ds

/-- `Datastore::write` for `LocalDisk` (lines 84-147).  `now` stands for
`epoch_millis()`.  The chunk file is written before the catalog is reloaded, so
a missing catalog file leaves the chunk behind and reports the read error. -/
def write (T : Transforms) (ld : LocalDisk) (now : Nat) (fs : Fs)
    (file_part : Nat) (data : Bytes) : Except Err Unit × Fs :=
  let d := transformData T ld data
  let fs1 : Fs := { fs with dirs := insertDir fs.dirs ld.dump_name file_part d }
  match fs1.indexFile with
  | none => (Except.error Err.ioError, fs1)
  | some idx =>
    (Except.ok (),
      write_index_file fs1
        ⟨writeBackups idx.backups ld.dump_name d.length now
          ld.enable_compression ld.encryption_key.isSome⟩)

/-- Modelled from the spec: the selection policy (spec section 3), `latest` at
minimum plus selection by explicit name. -/
inductive ReadOptions where
  | latest
  | byName (name : String)

/-- The record with the greatest `created_at` (ties resolved to the earliest
listed), or `none` on an empty catalog. -/
def latestBackup : List Backup → Option Backup
  | [] => none
  | b :: rest =>
    match latestBackup rest with
    | none => some b
    | some c => if b.created_at < c.created_at then some c else some b

/-- Modelled from the spec: `IndexFile::find_backup` (in the missing
`datastore/mod.rs`): `latest` picks the record with the greatest `created_at`,
by-name picks the record with the matching name; `none` models NotFound. -/
def find_backup (idx : IndexFile) : ReadOptions → Option Backup
  | ReadOptions.latest => latestBackup idx.backups
  | ReadOptions.byName n => idx.backups.find? (fun b => b.directory_name == n)

/-- The per-chunk loop of `LocalDisk::read` lines 158-180: for each chunk file,
decrypt when the backup is marked encrypted (`Err.panicked` when no key is
configured — the `unwrap` at line 166), then decompress when marked compressed,
then hand the bytes to the consumer.  Returns the list of buffers passed to the
consumer callback, in order, together with the outcome. -/
def readChunks (T : Transforms) (ld : LocalDisk) (b : Backup) :
    List (Nat × Bytes) → List Bytes × Except Err Unit
  | [] => ([], Except.ok ())
  | (_, data) :: rest =>
    if b.encrypted then
      match ld.encryption_key with
      | none => ([], Except.error Err.panicked)
      | some key =>
        let d1 := T.decrypt key data
        let d2 := if b.compressed then T.decompress d1 else d1
        (d2 :: (readChunks T ld b rest).1, (readChunks T ld b rest).2)
    else
      let d2 := if b.compressed then T.decompress data else data
      (d2 :: (readChunks T ld b rest).1, (readChunks T ld b rest).2)

/-- `Datastore::read` for `LocalDisk` (lines 149-183): resolve the backup
through the catalog, enumerate its chunk files, replay each through the chunk
loop.  The first component lists the buffers handed to the consumer callback.
The filesystem state is threaded through unchanged: the source read path
performs no write. -/
def read (T : Transforms) (ld : LocalDisk) (options : ReadOptions) (fs : Fs) :
    (List Bytes × Except Err Unit) × Fs :=
  match fs.indexFile with
  | none => (([], Except.error Err.ioError), fs)
  | some idx =>
    match find_backup idx options with
    | none => (([], Except.error Err.notFound), fs)
    | some b =>
      match dirLookup fs.dirs b.directory_name with
      | none => (([], Except.error Err.ioError), fs)
      | some chunks => (readChunks T ld b chunks, fs)

/-- `Datastore::delete_by_name` for `LocalDisk` (lines 210-223): read the
catalog, remove the backup directory (`Err.notFound` when it is absent, as
`remove_dir_all` then fails), then retain the other records and persist the
catalog. -/
def delete_by_name (fs : Fs) (name : String) : Except Err Unit × Fs :=
  match fs.indexFile with
  | none => (Except.error Err.ioError, fs)
  | some idx =>
    match dirLookup fs.dirs name with
    | none => (Except.error Err.notFound, fs)
    | some _ =>
      let fs1 : Fs := { fs with dirs := removeDir fs.dirs name }
      (Except.ok (),
        write_index_file fs1 ⟨idx.backups.filter (fun b => b.directory_name != name)⟩)

/-- Insert one record into a list kept sorted by decreasing `created_at`. -/
def insertDesc (b : Backup) : List Backup → List Backup
  | [] => [b]
  | c :: rest =>
    if c.created_at < b.created_at then b :: c :: rest else c :: insertDesc b rest

/-- Modelled from the spec (section 4.4, the retention evaluator in the missing
`datastore/mod.rs`): sort records by `created_at` descending. -/
def sortDesc : List Backup → List Backup
  | [] => []
  | b :: rest => insertDesc b (sortDesc rest)

/-- Delete a list of backups by name, in order, aborting on the first error. -/
def deleteAll (fs : Fs) : List String → Except Err Unit × Fs
  | [] => (Except.ok (), fs)
  | n :: rest =>
    match delete_by_name fs n with
    | (Except.ok _, fs1) => deleteAll fs1 rest
    | (e, fs1) => (e, fs1)

/-- Modelled from the spec: `delete` with `keep_last = count` (section 4.4, the
retention dispatcher in the missing `datastore/mod.rs`): sort records by
`created_at` descending, select every record beyond position `count`, and
delete each selected backup by name. -/
def delete_keep_last (fs : Fs) (count : Nat) : Except Err Unit × Fs :=
  match fs.indexFile with
  | none => (Except.error Err.ioError, fs)
  | some idx =>
    deleteAll fs (((sortDesc idx.backups).drop count).map (fun b => b.directory_name))

/-- A sequence of `write` calls; each element is `(now, file_part, payload)`. -/
def writeAll (T : Transforms) (ld : LocalDisk) :
    List (Nat × Nat × Bytes) → Fs → Except Err Unit × Fs
  | [], fs => (Except.ok (), fs)
  | (now, part, data) :: rest, fs =>
    match write T ld now fs part data with
    | (Except.ok _, fs1) => writeAll T ld rest fs1
    | (e, fs1) => (e, fs1)

theorem dirLookup_cons (n : String) (cs : List (Nat × Bytes))
    (rest : List (String × List (Nat × Bytes))) (m : String) :
    dirLookup ((n, cs) :: rest) m = if n = m then some cs else dirLookup rest m := by
  by_cases h : n = m <;> simp [dirLookup, List.find?_cons, h]

theorem removeDir_cons (n : String) (cs : List (Nat × Bytes))
    (rest : List (String × List (Nat × Bytes))) (name : String) :
    removeDir ((n, cs) :: rest) name =
      if n = name then removeDir rest name else (n, cs) :: removeDir rest name := by
  by_cases h : n = name <;> simp [removeDir, List.filter_cons, h]

theorem dirLookup_removeDir (ds : List (String × List (Nat × Bytes))) (name m : String) :
    dirLookup (removeDir ds name) m = if m = name then none else dirLookup ds m := by
  induction ds with
  | nil => simp [removeDir, dirLookup]
  | cons e rest ih =>
    obtain ⟨n, cs⟩ := e
    rw [removeDir_cons]
    by_cases hnn : n = name
    · rw [if_pos hnn, ih, dirLookup_cons]
      by_cases hm : m = name
      · simp [hm]
      · have : n ≠ m := fun h => hm (hnn ▸ h.symm)
        simp [hm, this]
    · rw [if_neg hnn, dirLookup_cons, dirLookup_cons]
      by_cases hnm : n = m
      · have : m ≠ name := fun h => hnn (hnm.trans h)
        simp [hnm, this]
      · simp [hnm, ih]

/-- C9: the read path never mutates the catalog: for every selection policy,
engine configuration, transform pair and starting state, the filesystem state
returned by `read` — in particular the persisted catalog file — is exactly the
state it was given, whether the read succeeds or fails. -/
theorem read_preserves_state (T : Transforms) (ld : LocalDisk)
    (options : ReadOptions) (fs : Fs) :
    (read T ld options fs).2 = fs ∧ (read T ld options fs).2.indexFile = fs.indexFile := by
  have h : (read T ld options fs).2 = fs := by
    unfold read
    split
    · rfl
    · split
      · rfl
      · split <;> rfl
  exact ⟨h, by rw [h]⟩

/-- C5: initialization is idempotent: when a catalog file exists,
`create_index_file` returns it unchanged and performs no side effect; when it is
absent, an empty catalog is persisted and returned; and a second `init`
immediately after a first one succeeds and changes nothing. -/
theorem init_idempotent (fs : Fs) :
    (∀ idx, fs.indexFile = some idx → create_index_file fs = (Except.ok idx, fs)) ∧
    (fs.indexFile = none →
      create_index_file fs = (Except.ok ⟨[]⟩, { fs with indexFile := some ⟨[]⟩ })) ∧
    init (init fs).2 = (Except.ok (), (init fs).2) := by
  rcases fs with ⟨idx, ds⟩
  rcases idx with _ | i
  · refine ⟨?_, ?_, ?_⟩
    · rintro idx h; cases h
    · intro _; rfl
    · rfl
  · refine ⟨?_, ?_, ?_⟩
    · rintro idx h; cases h; rfl
    · rintro h; cases h
    · rfl

/-- Witness for C5: on the fresh state with no catalog file, initialization
persists the empty catalog, and a repeated `init` succeeds without changing the
state. -/
theorem init_idempotent_witness :
    create_index_file (Fs.mk none []) = (Except.ok ⟨[]⟩, Fs.mk (some ⟨[]⟩) []) ∧
    init (init (Fs.mk none [])).2 = (Except.ok (), (init (Fs.mk none [])).2) := by
  have h := init_idempotent (Fs.mk none [])
  exact ⟨h.2.1 rfl, h.2.2⟩

/-- C2: evaluation of the code at the failing input (the claim states the intent
of the spec; the code deviates).  Two successful writes to the same backup name —
compression disabled, no encryption key — with payload lengths 0 and 1 leave TWO
catalog records named "b" (sizes 0 and 1): the `size == 0` test at line 135 of
`write` misreads the existing zero-size record as "a new backup" and pushes a
duplicate, violating "exactly one Backup record with that name" and the claimed
size accounting. -/
theorem write_zero_size_pushes_duplicate_record :
    writeAll Tid ⟨"b", false, none⟩ [(10, 1, []), (20, 2, [42])] ⟨some ⟨[]⟩, []⟩ =
      (Except.ok (), ⟨some ⟨[⟨"b", 0, 10, false, false⟩, ⟨"b", 1, 20, false, false⟩]⟩,
        [("b", [(1, []), (2, [42])])]⟩) ∧
    (((writeAll Tid ⟨"b", false, none⟩ [(10, 1, []), (20, 2, [42])]
        ⟨some ⟨[]⟩, []⟩).2.indexFile.getD ⟨[]⟩).backups.filter
      (fun b => b.directory_name == "b")).length = 2 := by
  constructor
  · rfl
  · rfl

/-- C4: evaluation of the code at the failing input (the claim states the intent
of the spec; the code deviates).  Starting from an empty catalog: a write of the
empty payload (compression off, no key) creates a record of size 0 for name "b";
a later write to the same name after the key "k" was configured does NOT merely
change that record — the `size == 0` branch pushes a second record named "b"
carrying fresh `created_at` and flags (`encrypted = true`), so the catalog
changes beyond the size field of the existing record, refuting the claimed frame
property. -/
theorem write_existing_zero_size_record_adds_record :
    write Tid ⟨"b", false, some "k"⟩ 200
        (write Tid ⟨"b", false, none⟩ 100 ⟨some ⟨[]⟩, []⟩ 1 []).2 2 [1] =
      (Except.ok (), ⟨some ⟨[⟨"b", 0, 100, false, false⟩, ⟨"b", 1, 200, false, true⟩]⟩,
        [("b", [(1, []), (2, [1])])]⟩) := by
  rfl

/-- C3 counterexample: reading this concrete state — whose only backup record is
marked encrypted — with no encryption key configured yields `Err.panicked`, the
model of the `unwrap` at line 166 of `read`: the operation stops before handing
any bytes to the consumer, but it does so by a process-aborting panic, not by
returning a Misconfiguration-type failure to the caller as the claim states (the
errors the code can return are only the I/O kinds modelled by
`notFound`/`ioError`; the code has no Misconfiguration error value). -/
theorem read_encrypted_no_key_panics_cx :
    read Tid ⟨"b", false, none⟩ ReadOptions.latest
        ⟨some ⟨[⟨"b", 5, 100, false, true⟩]⟩, [("b", [(1, [42])])]⟩ =
      (([], Except.error Err.panicked),
        ⟨some ⟨[⟨"b", 5, 100, false, true⟩]⟩, [("b", [(1, [42])])]⟩) := by
  rfl

/-- C3 (amended): for every read that selects a backup whose record is marked
encrypted while no encryption key is configured on the engine, if the backup
directory holds at least one chunk file then the operation stops at the first
chunk with the modelled panic — the `unwrap` on the missing key — delivering
nothing to the consumer: it neither skips decryption nor returns a
Misconfiguration error. -/
theorem read_encrypted_no_key_panics (T : Transforms) (ld : LocalDisk)
    (options : ReadOptions) (fs : Fs) (idx : IndexFile) (b : Backup)
    (c : Nat × Bytes) (rest : List (Nat × Bytes))
    (hidx : fs.indexFile = some idx)
    (hfind : find_backup idx options = some b)
    (henc : b.encrypted = true)
    (hkey : ld.encryption_key = none)
    (hdir : dirLookup fs.dirs b.directory_name = some (c :: rest)) :
    read T ld options fs = (([], Except.error Err.panicked), fs) := by
  obtain ⟨p, d⟩ := c
  unfold read
  simp only [hidx, hfind, hdir]
  simp [readChunks, henc, hkey]

/-- Witness for the amended C3 at a concrete input. -/
theorem read_encrypted_no_key_panics_witness :
    read Tid ⟨"c", true, none⟩ ReadOptions.latest
        ⟨some ⟨[⟨"c", 3, 7, true, true⟩]⟩, [("c", [(2, [9])])]⟩ =
      (([], Except.error Err.panicked),
        ⟨some ⟨[⟨"c", 3, 7, true, true⟩]⟩, [("c", [(2, [9])])]⟩) :=
  read_encrypted_no_key_panics Tid ⟨"c", true, none⟩ ReadOptions.latest
    ⟨some ⟨[⟨"c", 3, 7, true, true⟩]⟩, [("c", [(2, [9])])]⟩ ⟨[⟨"c", 3, 7, true, true⟩]⟩
    ⟨"c", 3, 7, true, true⟩ (2, [9]) [] rfl rfl rfl rfl rfl

/-- C6: for every state with a readable catalog, a successful
`delete_by_name(name)` removes exactly the records named `name` from the catalog
and the whole chunk directory of that name, leaving every other record (the
filter keeps them unchanged) and every other directory untouched; when the
named directory does not exist the call fails with NotFound and the state is
unchanged. -/
theorem delete_by_name_spec (fs : Fs) (bs : List Backup) (name : String)
    (hidx : fs.indexFile = some ⟨bs⟩) :
    (dirLookup fs.dirs name = none →
      delete_by_name fs name = (Except.error Err.notFound, fs)) ∧
    (∀ cs, dirLookup fs.dirs name = some cs →
      delete_by_name fs name =
        (Except.ok (), ⟨some ⟨bs.filter (fun b => b.directory_name != name)⟩,
          removeDir fs.dirs name⟩) ∧
      dirLookup (delete_by_name fs name).2.dirs name = none ∧
      ∀ m, m ≠ name → dirLookup (delete_by_name fs name).2.dirs m = dirLookup fs.dirs m) := by
  constructor
  · intro hn
    unfold delete_by_name
    simp only [hidx, hn]
  · intro cs hcs
    have hd : delete_by_name fs name =
        (Except.ok (), ⟨some ⟨bs.filter (fun b => b.directory_name != name)⟩,
          removeDir fs.dirs name⟩) := by
      unfold delete_by_name
      simp only [hidx, hcs]
      rfl
    refine ⟨hd, ?_, ?_⟩
    · rw [hd]
      simp [dirLookup_removeDir]
    · intro m hm
      rw [hd]
      simp [dirLookup_removeDir, hm]

/-- Witness for C6 at a concrete input: deleting "a" from a two-backup state
removes exactly the record and directory of "a"; deleting the absent name "z"
fails with NotFound and leaves the state unchanged. -/
theorem delete_by_name_spec_witness :
    delete_by_name (Fs.mk (some ⟨[⟨"a", 1, 5, false, false⟩, ⟨"b", 2, 6, false, false⟩]⟩)
        [("a", [(1, [1])]), ("b", [(1, [2])])]) ("a") =
      (Except.ok (), Fs.mk (some ⟨[⟨"b", 2, 6, false, false⟩]⟩) [("b", [(1, [2])])]) ∧
    delete_by_name (Fs.mk (some ⟨[⟨"a", 1, 5, false, false⟩, ⟨"b", 2, 6, false, false⟩]⟩)
        [("a", [(1, [1])]), ("b", [(1, [2])])]) ("z") =
      (Except.error Err.notFound,
        Fs.mk (some ⟨[⟨"a", 1, 5, false, false⟩, ⟨"b", 2, 6, false, false⟩]⟩)
          [("a", [(1, [1])]), ("b", [(1, [2])])]) := by
  constructor
  · exact ((delete_by_name_spec
      (Fs.mk (some ⟨[⟨"a", 1, 5, false, false⟩, ⟨"b", 2, 6, false, false⟩]⟩)
        [("a", [(1, [1])]), ("b", [(1, [2])])]) ([⟨"a", 1, 5, false, false⟩,
        ⟨"b", 2, 6, false, false⟩]) ("a") rfl).2 [(1, [1])] rfl).1
  · exact (delete_by_name_spec
      (Fs.mk (some ⟨[⟨"a", 1, 5, false, false⟩, ⟨"b", 2, 6, false, false⟩]⟩)
        [("a", [(1, [1])]), ("b", [(1, [2])])]) ([⟨"a", 1, 5, false, false⟩,
        ⟨"b", 2, 6, false, false⟩]) ("z") rfl).1 rfl

/-- C7: the delete path removes storage before touching the catalog: whenever
`delete_by_name` returns an error — in particular when the storage-removal step
fails — the persisted catalog file is unchanged; and the invariant "every
catalog record has its storage directory" is preserved by the call, so the
failure mode is never a surviving catalog entry whose storage this call
removed. -/
theorem delete_error_keeps_catalog (fs : Fs) (name : String) :
    (∀ e fs1, delete_by_name fs name = (Except.error e, fs1) →
      fs1.indexFile = fs.indexFile) ∧
    (∀ bs, fs.indexFile = some ⟨bs⟩ →
      (∀ b ∈ bs, dirLookup fs.dirs b.directory_name ≠ none) →
      ∀ bs1, (delete_by_name fs name).2.indexFile = some ⟨bs1⟩ →
      ∀ b ∈ bs1, dirLookup (delete_by_name fs name).2.dirs b.directory_name ≠ none) := by
  constructor
  · intro e fs1 h
    unfold delete_by_name at h
    revert h
    split
    · intro h
      injection h with h1 h2
      rw [← h2]
    · split
      · intro h
        injection h with h1 h2
        rw [← h2]
      · intro h
        injection h with h1 h2
        cases h1
  · intro bs hidx hinv bs1 h1 b hb
    cases hcs : dirLookup fs.dirs name with
    | none =>
      have hd : delete_by_name fs name = (Except.error Err.notFound, fs) := by
        unfold delete_by_name
        simp only [hidx, hcs]
      rw [hd] at h1 ⊢
      rw [hidx] at h1
      injection h1 with h2
      injection h2 with h3
      rw [← h3] at hb
      exact hinv b hb
    | some cs =>
      have hd : delete_by_name fs name =
          (Except.ok (), ⟨some ⟨bs.filter (fun b => b.directory_name != name)⟩,
            removeDir fs.dirs name⟩) := by
        unfold delete_by_name
        simp only [hidx, hcs]
        rfl
      rw [hd] at h1 ⊢
      injection h1 with h2
      injection h2 with h3
      rw [← h3] at hb
      have hmem := List.mem_filter.mp hb
      have hbn : b.directory_name ≠ name := by
        have h4 := hmem.2
        simpa [bne] using h4
      simpa [dirLookup_removeDir, hbn] using hinv b hmem.1

/-- Witness for C7 at concrete inputs: a failed delete (missing name "z") leaves
the persisted catalog unchanged, and after deleting "a" the surviving record
named "b" still has its storage directory. -/
theorem delete_error_keeps_catalog_witness :
    (Fs.mk (some ⟨[⟨"a", 1, 5, false, false⟩]⟩) []).indexFile =
      (Fs.mk (some ⟨[⟨"a", 1, 5, false, false⟩]⟩) []).indexFile ∧
    dirLookup ((delete_by_name (Fs.mk
        (some ⟨[⟨"a", 1, 5, false, false⟩, ⟨"b", 2, 6, false, false⟩]⟩)
        [("a", [(1, [1])]), ("b", [(1, [2])])]) ("a")).2.dirs) ("b") ≠ none := by
  constructor
  · exact (delete_error_keeps_catalog (Fs.mk (some ⟨[⟨"a", 1, 5, false, false⟩]⟩) [])
      ("z")).1 Err.notFound (Fs.mk (some ⟨[⟨"a", 1, 5, false, false⟩]⟩) []) rfl
  · exact (delete_error_keeps_catalog (Fs.mk
      (some ⟨[⟨"a", 1, 5, false, false⟩, ⟨"b", 2, 6, false, false⟩]⟩)
      [("a", [(1, [1])]), ("b", [(1, [2])])]) ("a")).2
      [⟨"a", 1, 5, false, false⟩, ⟨"b", 2, 6, false, false⟩] rfl (by decide)
      [⟨"b", 2, 6, false, false⟩] rfl ⟨"b", 2, 6, false, false⟩ (by decide)

theorem write_eq (T : Transforms) (ld : LocalDisk) (now : Nat) (fs : Fs)
    (part : Nat) (data : Bytes) (bs : List Backup) (hidx : fs.indexFile = some ⟨bs⟩) :
    write T ld now fs part data =
      (Except.ok (), ⟨some ⟨writeBackups bs ld.dump_name
          (transformData T ld data).length now ld.enable_compression
          ld.encryption_key.isSome⟩,
        insertDir fs.dirs ld.dump_name part (transformData T ld data)⟩) := by
  obtain ⟨i, ds⟩ := fs
  have h2 : i = some ⟨bs⟩ := hidx
  subst h2
  rfl

theorem insertDir_of_none (ds : List (String × List (Nat × Bytes))) (name : String)
    (part : Nat) (data : Bytes) (h : dirLookup ds name = none) :
    insertDir ds name part data = ds ++ [(name, [(part, data)])] := by
  induction ds with
  | nil => rfl
  | cons e rest ih =>
    obtain ⟨n, cs⟩ := e
    rw [dirLookup_cons] at h
    by_cases hn : n = name
    · rw [if_pos hn] at h
      cases h
    · rw [if_neg hn] at h
      simp [insertDir, hn, ih h]

theorem insertDir_last (ds : List (String × List (Nat × Bytes))) (name : String)
    (cs : List (Nat × Bytes)) (part : Nat) (data : Bytes)
    (h : dirLookup ds name = none) :
    insertDir (ds ++ [(name, cs)]) name part data =
      ds ++ [(name, insertChunk cs part data)] := by
  induction ds with
  | nil => simp [insertDir]
  | cons e rest ih =>
    obtain ⟨n, cs1⟩ := e
    rw [dirLookup_cons] at h
    by_cases hn : n = name
    · rw [if_pos hn] at h
      cases h
    · rw [if_neg hn] at h
      simp [List.cons_append, insertDir, hn, ih h]

theorem dirLookup_append_last (ds : List (String × List (Nat × Bytes))) (name : String)
    (cs : List (Nat × Bytes)) (h : dirLookup ds name = none) :
    dirLookup (ds ++ [(name, cs)]) name = some cs := by
  have h1 : ds.find? (fun e => e.1 == name) = none := by
    unfold dirLookup at h
    exact Option.map_eq_none'.mp h
  unfold dirLookup
  rw [List.find?_append, h1]
  simp [List.find?_cons]

theorem find?_append_none (l1 l2 : List Backup) (p : Backup → Bool)
    (h : l1.find? p = none) : (l1 ++ l2).find? p = l2.find? p := by
  rw [List.find?_append, h]
  rfl

theorem updateFirst_append_nomatch (l1 l2 : List Backup) (name : String) (ds : Nat)
    (h : ∀ b ∈ l1, b.directory_name ≠ name) :
    updateFirst (l1 ++ l2) name ds = l1 ++ updateFirst l2 name ds := by
  induction l1 with
  | nil => rfl
  | cons b rest ih =>
    have hb : b.directory_name ≠ name := h b (by simp)
    simp only [List.cons_append, updateFirst]
    simp [hb, ih (fun x hx => h x (List.mem_cons_of_mem _ hx))]

theorem insertChunk_same (part : Nat) (d1 d2 : Bytes) :
    insertChunk [(part, d1)] part d2 = [(part, d2)] := by
  simp [insertChunk]

/-- C10 counterexample: with compression disabled and no key, writing the empty
payload and then payload `[7]`, both to chunk 5 of a fresh backup, leaves one
chunk file as the claim says — but the catalog ends with TWO records for the
name (sizes 0 and 1): the record created by the first write is never
incremented by the second transformed length, refuting the claimed size
accounting of "the Backup record". -/
theorem double_write_zero_first_cx :
    writeAll Tid ⟨"b", false, none⟩ [(10, 5, []), (20, 5, [7])] ⟨some ⟨[]⟩, []⟩ =
      (Except.ok (), ⟨some ⟨[⟨"b", 0, 10, false, false⟩, ⟨"b", 1, 20, false, false⟩]⟩,
        [("b", [(5, [7])])]⟩) ∧
    ((writeAll Tid ⟨"b", false, none⟩ [(10, 5, []), (20, 5, [7])]
        ⟨some ⟨[]⟩, []⟩).2.indexFile.getD ⟨[]⟩).backups.length = 2 := by
  constructor
  · rfl
  · rfl

/-- C10 (amended): for every backup name fresh in both catalog and storage,
chunk number `part`, and payloads whose FIRST transformed length is nonzero,
writing `b1` then `b2` to the same `part` leaves exactly one chunk file for
`part` on disk — holding the second transformed payload — while the single
catalog record for the name carries size `t1 + t2`, the sum of both transformed
lengths, which strictly exceeds the `t2` bytes actually stored.  (When the
first transformed payload is empty the code instead pushes a duplicate record:
see the counterexample.) -/
theorem double_write_overwrites_and_accumulates (T : Transforms) (ld : LocalDisk)
    (fs : Fs) (bs : List Backup) (n1 n2 part : Nat) (b1 b2 : Bytes)
    (hidx : fs.indexFile = some ⟨bs⟩)
    (hfresh : bs.find? (fun b => b.directory_name == ld.dump_name) = none)
    (hdir : dirLookup fs.dirs ld.dump_name = none)
    (hz : (transformData T ld b1).length ≠ 0) :
    (write T ld n1 fs part b1).1 = Except.ok () ∧
    (write T ld n2 (write T ld n1 fs part b1).2 part b2).1 = Except.ok () ∧
    dirLookup (write T ld n2 (write T ld n1 fs part b1).2 part b2).2.dirs
        ld.dump_name = some [(part, transformData T ld b2)] ∧
    (write T ld n2 (write T ld n1 fs part b1).2 part b2).2.indexFile =
      some ⟨bs ++ [⟨ld.dump_name,
        (transformData T ld b1).length + (transformData T ld b2).length, n1,
        ld.enable_compression, ld.encryption_key.isSome⟩]⟩ ∧
    (transformData T ld b2).length <
      (transformData T ld b1).length + (transformData T ld b2).length := by
  have hnomatch : ∀ b ∈ bs, b.directory_name ≠ ld.dump_name := by
    intro b hb
    have h1 := List.find?_eq_none.mp hfresh b hb
    simpa using h1
  have hw1 : write T ld n1 fs part b1 =
      (Except.ok (), ⟨some ⟨bs ++ [⟨ld.dump_name, (transformData T ld b1).length, n1,
          ld.enable_compression, ld.encryption_key.isSome⟩]⟩,
        fs.dirs ++ [(ld.dump_name, [(part, transformData T ld b1)])]⟩) := by
    rw [write_eq T ld n1 fs part b1 bs hidx,
        insertDir_of_none fs.dirs ld.dump_name part (transformData T ld b1) hdir]
    unfold writeBackups
    rw [hfresh]
  have hfind2 : (bs ++ [(⟨ld.dump_name, (transformData T ld b1).length, n1,
      ld.enable_compression, ld.encryption_key.isSome⟩ : Backup)]).find?
        (fun b => b.directory_name == ld.dump_name) =
      some ⟨ld.dump_name, (transformData T ld b1).length, n1,
        ld.enable_compression, ld.encryption_key.isSome⟩ := by
    rw [find?_append_none _ _ _ hfresh]
    simp [List.find?_cons]
  have hw2 : write T ld n2 (write T ld n1 fs part b1).2 part b2 =
      (Except.ok (), ⟨some ⟨bs ++ [⟨ld.dump_name,
          (transformData T ld b1).length + (transformData T ld b2).length, n1,
          ld.enable_compression, ld.encryption_key.isSome⟩]⟩,
        fs.dirs ++ [(ld.dump_name, [(part, transformData T ld b2)])]⟩) := by
    rw [hw1]
    rw [write_eq T ld n2 _ part b2
        (bs ++ [⟨ld.dump_name, (transformData T ld b1).length, n1,
          ld.enable_compression, ld.encryption_key.isSome⟩]) rfl]
    rw [insertDir_last fs.dirs ld.dump_name _ part (transformData T ld b2) hdir,
        insertChunk_same]
    unfold writeBackups
    rw [hfind2]
    have hbeq : ((transformData T ld b1).length == 0) = false := by
      simpa using hz
    simp only [hbeq, Bool.false_eq_true, if_false]
    rw [updateFirst_append_nomatch bs _ ld.dump_name _ hnomatch]
    simp [updateFirst]
  refine ⟨by rw [hw1], by rw [hw2], ?_, ?_, ?_⟩
  · rw [hw2]
    exact dirLookup_append_last fs.dirs ld.dump_name _ hdir
  · rw [hw2]
  · exact Nat.lt_add_of_pos_left (Nat.pos_of_ne_zero hz)

/-- Witness for the amended C10 at a concrete input: two writes to chunk 5 with
payloads of transformed lengths 1 and 2 leave one chunk file holding the second
payload, and a single catalog record of size 3. -/
theorem double_write_overwrites_and_accumulates_witness :
    (write Tid ⟨"b", false, none⟩ 10 (⟨some ⟨[]⟩, []⟩ : Fs) 5 [1]).1 = Except.ok () ∧
    (write Tid ⟨"b", false, none⟩ 20
        (write Tid ⟨"b", false, none⟩ 10 (⟨some ⟨[]⟩, []⟩ : Fs) 5 [1]).2 5 [7, 8]).1 =
      Except.ok () ∧
    dirLookup (write Tid ⟨"b", false, none⟩ 20
        (write Tid ⟨"b", false, none⟩ 10 (⟨some ⟨[]⟩, []⟩ : Fs) 5 [1]).2 5
          [7, 8]).2.dirs ("b") = some [(5, [7, 8])] ∧
    (write Tid ⟨"b", false, none⟩ 20
        (write Tid ⟨"b", false, none⟩ 10 (⟨some ⟨[]⟩, []⟩ : Fs) 5 [1]).2 5
          [7, 8]).2.indexFile = some ⟨[⟨"b", 3, 10, false, false⟩]⟩ ∧
    (2 : Nat) < 3 := by
  have h := double_write_overwrites_and_accumulates Tid ⟨"b", false, none⟩
    (⟨some ⟨[]⟩, []⟩ : Fs) [] 10 20 5 [1] [7, 8] rfl rfl rfl (by decide)
  exact h

theorem insertChunk_append_last (cs : List (Nat × Bytes)) (part : Nat) (data : Bytes)
    (h : ∀ c ∈ cs, c.1 < part) : insertChunk cs part data = cs ++ [(part, data)] := by
  induction cs with
  | nil => rfl
  | cons c rest ih =>
    obtain ⟨p, d⟩ := c
    have hp : p < part := h (p, d) (by simp)
    have h1 : ¬ part < p := by omega
    have h2 : ¬ part = p := by omega
    simp [insertChunk, h1, h2, ih (fun x hx => h x (List.mem_cons_of_mem _ hx))]

theorem updateFirst_ne_nil (rs : List Backup) (name : String) (ds : Nat)
    (h : rs ≠ []) : updateFirst rs name ds ≠ [] := by
  cases rs with
  | nil => exact absurd rfl h
  | cons b rest =>
    by_cases hb : b.directory_name = name <;> simp [updateFirst, hb]

theorem mem_updateFirst (rs : List Backup) (name : String) (ds : Nat) :
    ∀ x ∈ updateFirst rs name ds,
      ∃ b, b ∈ rs ∧ (x = b ∨ x = { b with size := b.size + ds }) := by
  induction rs with
  | nil =>
    intro x hx
    cases hx
  | cons b rest ih =>
    intro x hx
    by_cases hb : b.directory_name = name
    · have hb2 : (b.directory_name == name) = true := by simpa using hb
      simp only [updateFirst, hb2, if_true] at hx
      rcases List.mem_cons.mp hx with hx | hx
      · exact ⟨b, by simp, Or.inr hx⟩
      · exact ⟨x, List.mem_cons_of_mem _ hx, Or.inl rfl⟩
    · have hb2 : (b.directory_name == name) = false := by simpa using hb
      simp only [updateFirst, hb2, Bool.false_eq_true, if_false] at hx
      rcases List.mem_cons.mp hx with hx | hx
      · exact ⟨b, by simp, Or.inl hx⟩
      · obtain ⟨c, hc, hrc⟩ := ih x hx
        exact ⟨c, List.mem_cons_of_mem _ hc, hrc⟩

theorem writeBackups_props (rs : List Backup) (name : String) (ds now : Nat)
    (comp enc : Bool) (hne : rs ≠ [])
    (hall : ∀ r ∈ rs, r.directory_name = name ∧ r.compressed = comp ∧
      r.encrypted = enc) :
    writeBackups rs name ds now comp enc ≠ [] ∧
    ∀ r ∈ writeBackups rs name ds now comp enc,
      r.directory_name = name ∧ r.compressed = comp ∧ r.encrypted = enc := by
  cases rs with
  | nil => exact absurd rfl hne
  | cons b rest =>
    have hb : b.directory_name = name := (hall b (by simp)).1
    have hfind : (b :: rest).find? (fun r => r.directory_name == name) = some b := by
      simp [List.find?_cons, hb]
    unfold writeBackups
    rw [hfind]
    by_cases hs : b.size = 0
    · simp only [hs, beq_self_eq_true, if_true]
      constructor
      · simp
      · intro r hr
        rcases List.mem_append.mp hr with hr | hr
        · exact hall r hr
        · simp at hr
          subst hr
          exact ⟨rfl, rfl, rfl⟩
    · have hs2 : (b.size == 0) = false := by simpa using hs
      simp only [hs2, Bool.false_eq_true, if_false]
      constructor
      · exact updateFirst_ne_nil _ _ _ (by simp)
      · intro r hr
        obtain ⟨c, hc, hrc⟩ := mem_updateFirst _ _ _ r hr
        rcases hrc with h1 | h1
        · rw [h1]
          exact hall c hc
        · rw [h1]
          exact ⟨(hall c hc).1, (hall c hc).2.1, (hall c hc).2.2⟩

theorem writeAll_cons (T : Transforms) (ld : LocalDisk) (now part : Nat) (data : Bytes)
    (rest : List (Nat × Nat × Bytes)) (fs fs1 : Fs)
    (h : write T ld now fs part data = (Except.ok (), fs1)) :
    writeAll T ld ((now, part, data) :: rest) fs = writeAll T ld rest fs1 := by
  show (match write T ld now fs part data with
    | (Except.ok _, fs2) => writeAll T ld rest fs2
    | (e, fs2) => (e, fs2)) = writeAll T ld rest fs1
  rw [h]

theorem writeAll_run (T : Transforms) (ld : LocalDisk) :
    ∀ (ws : List (Nat × Nat × Bytes)) (rs : List Backup) (cs : List (Nat × Bytes)),
    rs ≠ [] →
    (∀ r ∈ rs, r.directory_name = ld.dump_name ∧
      r.compressed = ld.enable_compression ∧ r.encrypted = ld.encryption_key.isSome) →
    (∀ c ∈ cs, ∀ w ∈ ws, c.1 < w.2.1) →
    (ws.map (fun w => w.2.1)).Pairwise (· < ·) →
    ∃ rs1, writeAll T ld ws ⟨some ⟨rs⟩, [(ld.dump_name, cs)]⟩ =
      (Except.ok (), ⟨some ⟨rs1⟩,
        [(ld.dump_name, cs ++ ws.map (fun w => (w.2.1, transformData T ld w.2.2)))]⟩) ∧
      rs1 ≠ [] ∧
      ∀ r ∈ rs1, r.directory_name = ld.dump_name ∧
        r.compressed = ld.enable_compression ∧ r.encrypted = ld.encryption_key.isSome := by
  intro ws
  induction ws with
  | nil =>
    intro rs cs hne hall hcs hp
    exact ⟨rs, by simp [writeAll], hne, hall⟩
  | cons w rest ih =>
    intro rs cs hne hall hcs hp
    obtain ⟨now, part, data⟩ := w
    have hstep : write T ld now ⟨some ⟨rs⟩, [(ld.dump_name, cs)]⟩ part data =
        (Except.ok (), ⟨some ⟨writeBackups rs ld.dump_name
            (transformData T ld data).length now ld.enable_compression
            ld.encryption_key.isSome⟩,
          [(ld.dump_name, cs ++ [(part, transformData T ld data)])]⟩) := by
      rw [write_eq T ld now _ part data rs rfl]
      have h1 : insertDir [(ld.dump_name, cs)] ld.dump_name part
          (transformData T ld data) =
          [(ld.dump_name, insertChunk cs part (transformData T ld data))] := by
        simp [insertDir]
      rw [h1, insertChunk_append_last cs part _
        (fun c hcm => hcs c hcm (now, part, data) (by simp))]
    obtain ⟨hwne, hwall⟩ := writeBackups_props rs ld.dump_name
      (transformData T ld data).length now ld.enable_compression
      ld.encryption_key.isSome hne hall
    have hcs1 : ∀ c ∈ cs ++ [(part, transformData T ld data)],
        ∀ w2 ∈ rest, c.1 < w2.2.1 := by
      intro c hcm w2 hw2
      rcases List.mem_append.mp hcm with hcm | hcm
      · exact hcs c hcm w2 (List.mem_cons_of_mem _ hw2)
      · simp at hcm
        subst hcm
        have h3 := (List.pairwise_cons.mp hp).1 w2.2.1 (List.mem_map_of_mem _ hw2)
        simpa using h3
    have hp1 : (rest.map (fun w => w.2.1)).Pairwise (· < ·) :=
      (List.pairwise_cons.mp hp).2
    obtain ⟨rs1, hrun, hne1, hall1⟩ := ih (writeBackups rs ld.dump_name
        (transformData T ld data).length now ld.enable_compression
        ld.encryption_key.isSome)
      (cs ++ [(part, transformData T ld data)]) hwne hwall hcs1 hp1
    refine ⟨rs1, ?_, hne1, hall1⟩
    rw [writeAll_cons T ld now part data rest _ _ hstep, hrun]
    simp [List.append_assoc]

theorem readChunks_cons_plain (T : Transforms) (ld : LocalDisk) (b : Backup)
    (p : Nat) (t : Bytes) (l : List (Nat × Bytes)) (hbe2 : b.encrypted = false) :
    readChunks T ld b ((p, t) :: l) =
      ((if b.compressed then T.decompress t else t) :: (readChunks T ld b l).1,
        (readChunks T ld b l).2) := by
  simp [readChunks, hbe2]

theorem readChunks_cons_enc (T : Transforms) (ld : LocalDisk) (b : Backup)
    (p : Nat) (t : Bytes) (l : List (Nat × Bytes)) (key : String)
    (hbe2 : b.encrypted = true) (hkey : ld.encryption_key = some key) :
    readChunks T ld b ((p, t) :: l) =
      ((if b.compressed then T.decompress (T.decrypt key t) else T.decrypt key t) ::
        (readChunks T ld b l).1, (readChunks T ld b l).2) := by
  simp [readChunks, hbe2, hkey]

theorem readChunks_roundtrip (T : Transforms) (ld : LocalDisk) (b : Backup)
    (hc : ∀ x, T.decompress (T.compress x) = x)
    (hk : ∀ key x, T.decrypt key (T.encrypt key x) = x)
    (hbc : b.compressed = ld.enable_compression)
    (hbe : b.encrypted = ld.encryption_key.isSome) :
    ∀ ps : List (Nat × Bytes),
    readChunks T ld b (ps.map (fun c => (c.1, transformData T ld c.2))) =
      (ps.map (fun c => c.2), Except.ok ()) := by
  intro ps
  induction ps with
  | nil => rfl
  | cons c rest ih =>
    obtain ⟨p, x⟩ := c
    rw [List.map_cons, List.map_cons]
    cases hkey : ld.encryption_key with
    | none =>
      have hbe2 : b.encrypted = false := by rw [hbe, hkey]; rfl
      rw [readChunks_cons_plain T ld b _ _ _ hbe2, ih]
      have ht : (if b.compressed then T.decompress (transformData T ld x)
          else transformData T ld x) = x := by
        rw [hbc]
        unfold transformData
        rw [hkey]
        cases hcomp : ld.enable_compression with
        | true => simp [hc]
        | false => simp
      rw [ht]
    | some key =>
      have hbe2 : b.encrypted = true := by rw [hbe, hkey]; rfl
      rw [readChunks_cons_enc T ld b _ _ _ key hbe2 hkey, ih]
      have ht : (if b.compressed then T.decompress (T.decrypt key (transformData T ld x))
          else T.decrypt key (transformData T ld x)) = x := by
        rw [hbc]
        unfold transformData
        rw [hkey]
        cases hcomp : ld.enable_compression with
        | true => simp [hk, hc]
        | false => simp [hk]
      rw [ht]

theorem latestBackup_some (l : List Backup) (h : l ≠ []) :
    ∃ r, latestBackup l = some r ∧ r ∈ l := by
  induction l with
  | nil => exact absurd rfl h
  | cons b rest ih =>
    by_cases hrest : rest = []
    · subst hrest
      exact ⟨b, rfl, by simp⟩
    · obtain ⟨r, hr, hmem⟩ := ih hrest
      by_cases hlt : b.created_at < r.created_at
      · refine ⟨r, ?_, List.mem_cons_of_mem _ hmem⟩
        have hunf : latestBackup (b :: rest) =
            match latestBackup rest with
            | none => some b
            | some c => if b.created_at < c.created_at then some c else some b := rfl
        rw [hunf, hr]
        show (if b.created_at < r.created_at then some r else some b) = some r
        rw [if_pos hlt]
      · refine ⟨b, ?_, by simp⟩
        have hunf : latestBackup (b :: rest) =
            match latestBackup rest with
            | none => some b
            | some c => if b.created_at < c.created_at then some c else some b := rfl
        rw [hunf, hr]
        show (if b.created_at < r.created_at then some r else some b) = some b
        rw [if_neg hlt]

/-- C1: round-trip: for every transform pair whose decompress inverts compress
and decrypt inverts encrypt, every engine configuration (compression on or off,
key present or absent), and every nonempty sequence of writes with strictly
increasing chunk numbers starting from the fresh initialized state, the writes
all succeed and a subsequent read of the latest backup hands the consumer
callback exactly the original payloads, chunk by chunk in order — reassembling
exactly the bytes that were written. -/
theorem write_read_roundtrip (T : Transforms) (ld : LocalDisk)
    (hc : ∀ x, T.decompress (T.compress x) = x)
    (hk : ∀ key x, T.decrypt key (T.encrypt key x) = x)
    (ws : List (Nat × Nat × Bytes)) (hne : ws ≠ [])
    (hparts : (ws.map (fun w => w.2.1)).Pairwise (· < ·)) :
    (writeAll T ld ws ⟨some ⟨[]⟩, []⟩).1 = Except.ok () ∧
    (read T ld ReadOptions.latest (writeAll T ld ws ⟨some ⟨[]⟩, []⟩).2).1 =
      (ws.map (fun w => w.2.2), Except.ok ()) := by
  cases ws with
  | nil => exact absurd rfl hne
  | cons w rest =>
    obtain ⟨now, part, data⟩ := w
    have hstep : write T ld now ⟨some ⟨[]⟩, []⟩ part data =
        (Except.ok (), ⟨some ⟨[⟨ld.dump_name, (transformData T ld data).length, now,
            ld.enable_compression, ld.encryption_key.isSome⟩]⟩,
          [(ld.dump_name, [(part, transformData T ld data)])]⟩) := by
      rw [write_eq T ld now _ part data [] rfl]
      rfl
    have hcs1 : ∀ c ∈ [(part, transformData T ld data)], ∀ w2 ∈ rest, c.1 < w2.2.1 := by
      intro c hcm w2 hw2
      simp at hcm
      subst hcm
      have h3 := (List.pairwise_cons.mp hparts).1 w2.2.1 (List.mem_map_of_mem _ hw2)
      simpa using h3
    obtain ⟨rs1, hrun, hne1, hall1⟩ := writeAll_run T ld rest
      [⟨ld.dump_name, (transformData T ld data).length, now,
        ld.enable_compression, ld.encryption_key.isSome⟩]
      [(part, transformData T ld data)] (by simp)
      (by
        intro r hr
        simp at hr
        subst hr
        exact ⟨rfl, rfl, rfl⟩)
      hcs1 (List.pairwise_cons.mp hparts).2
    have hwa : writeAll T ld ((now, part, data) :: rest) ⟨some ⟨[]⟩, []⟩ =
        (Except.ok (), ⟨some ⟨rs1⟩,
          [(ld.dump_name, ((now, part, data) :: rest).map
            (fun w => (w.2.1, transformData T ld w.2.2)))]⟩) := by
      rw [writeAll_cons T ld now part data rest _ _ hstep, hrun]
      simp
    rw [hwa]
    refine ⟨rfl, ?_⟩
    obtain ⟨r, hr, hmem⟩ := latestBackup_some rs1 hne1
    obtain ⟨hname, hcomp2, henc2⟩ := hall1 r hmem
    have hdl : dirLookup [(ld.dump_name, ((now, part, data) :: rest).map
        (fun w => (w.2.1, transformData T ld w.2.2)))] r.directory_name =
        some (((now, part, data) :: rest).map
          (fun w => (w.2.1, transformData T ld w.2.2))) := by
      rw [dirLookup_cons, if_pos hname.symm]
    have hmaps : ((now, part, data) :: rest).map
        (fun w => (w.2.1, transformData T ld w.2.2)) =
        (((now, part, data) :: rest).map (fun w => w.2)).map
          (fun c => (c.1, transformData T ld c.2)) := by
      rw [List.map_map]
      rfl
    unfold read
    simp only [find_backup, hr, hdl]
    rw [hmaps, readChunks_roundtrip T ld r hc hk hcomp2 henc2]
    simp [List.map_map]

/-- Witness for C1 at a concrete input: two chunks with compression enabled and
an encryption key configured, under the identity transforms, replay exactly the
two payloads in order. -/
theorem write_read_roundtrip_witness :
    (writeAll Tid ⟨"b", true, some "k"⟩ [(10, 1, [1, 2]), (20, 2, [3])]
      ⟨some ⟨[]⟩, []⟩).1 = Except.ok () ∧
    (read Tid ⟨"b", true, some "k"⟩ ReadOptions.latest
        (writeAll Tid ⟨"b", true, some "k"⟩ [(10, 1, [1, 2]), (20, 2, [3])]
          ⟨some ⟨[]⟩, []⟩).2).1 = ([[1, 2], [3]], Except.ok ()) :=
  write_read_roundtrip Tid ⟨"b", true, some "k"⟩ (fun _ => rfl) (fun _ _ => rfl)
    [(10, 1, [1, 2]), (20, 2, [3])] (by decide) (by decide)

theorem insertDesc_perm (b : Backup) (l : List Backup) :
    List.Perm (insertDesc b l) (b :: l) := by
  induction l with
  | nil => exact List.Perm.refl _
  | cons c rest ih =>
    unfold insertDesc
    by_cases hlt : c.created_at < b.created_at
    · rw [if_pos hlt]
    · rw [if_neg hlt]
      exact (List.Perm.cons c ih).trans (List.Perm.swap b c rest)

theorem sortDesc_perm (l : List Backup) : List.Perm (sortDesc l) l := by
  induction l with
  | nil => exact List.Perm.refl _
  | cons b rest ih =>
    exact (insertDesc_perm b (sortDesc rest)).trans (List.Perm.cons b ih)

theorem insertDesc_sorted (b : Backup) (l : List Backup)
    (h : l.Pairwise (fun a c => c.created_at ≤ a.created_at)) :
    (insertDesc b l).Pairwise (fun a c => c.created_at ≤ a.created_at) := by
  induction l with
  | nil => simp [insertDesc]
  | cons c rest ih =>
    rw [List.pairwise_cons] at h
    unfold insertDesc
    by_cases hlt : c.created_at < b.created_at
    · rw [if_pos hlt]
      refine List.pairwise_cons.mpr ⟨?_, List.pairwise_cons.mpr ⟨h.1, h.2⟩⟩
      intro x hx
      rcases List.mem_cons.mp hx with rfl | hx
      · exact Nat.le_of_lt hlt
      · exact Nat.le_trans (h.1 x hx) (Nat.le_of_lt hlt)
    · rw [if_neg hlt]
      refine List.pairwise_cons.mpr ⟨?_, ih h.2⟩
      intro x hx
      have hx2 : x ∈ b :: rest := (insertDesc_perm b rest).mem_iff.mp hx
      rcases List.mem_cons.mp hx2 with rfl | hx2
      · exact Nat.le_of_not_lt hlt
      · exact h.1 x hx2

theorem sortDesc_sorted (l : List Backup) :
    (sortDesc l).Pairwise (fun a c => c.created_at ≤ a.created_at) := by
  induction l with
  | nil => simp [sortDesc]
  | cons b rest ih => exact insertDesc_sorted b (sortDesc rest) ih

theorem contains_false_iff (l : List String) (s : String) :
    (!(l.contains s)) = true ↔ s ∉ l := by
  constructor
  · intro h hmem
    have h2 : l.elem s = true := List.elem_iff.mpr hmem
    have h3 : l.contains s = true := h2
    rw [h3] at h
    cases h
  · intro h
    have h2 : l.contains s = false := by
      cases hc : l.contains s with
      | true =>
        have h3 : l.elem s = true := hc
        exact absurd (List.elem_iff.mp h3) h
      | false => rfl
    rw [h2]
    rfl

theorem deleteAll_cons (fs fs1 : Fs) (n : String) (rest : List String)
    (h : delete_by_name fs n = (Except.ok (), fs1)) :
    deleteAll fs (n :: rest) = deleteAll fs1 rest := by
  show (match delete_by_name fs n with
    | (Except.ok _, fs2) => deleteAll fs2 rest
    | (e, fs2) => (e, fs2)) = deleteAll fs1 rest
  rw [h]

theorem deleteAll_run :
    ∀ (names : List String) (fs : Fs) (bs : List Backup),
    fs.indexFile = some ⟨bs⟩ →
    names.Nodup →
    (∀ n ∈ names, dirLookup fs.dirs n ≠ none) →
    (deleteAll fs names).1 = Except.ok () ∧
    (deleteAll fs names).2.indexFile =
      some ⟨bs.filter (fun b => !(names.contains b.directory_name))⟩ ∧
    ∀ m, dirLookup (deleteAll fs names).2.dirs m =
      if names.contains m then none else dirLookup fs.dirs m := by
  intro names
  induction names with
  | nil =>
    intro fs bs hidx hnd hdirs
    refine ⟨rfl, ?_, ?_⟩
    · show fs.indexFile = some ⟨bs.filter (fun b => !(List.contains [] b.directory_name))⟩
      rw [hidx]
      simp
    · intro m
      show dirLookup fs.dirs m = if List.contains [] m then none else dirLookup fs.dirs m
      simp
  | cons n rest ih =>
    intro fs bs hidx hnd hdirs
    obtain ⟨cs, hcs⟩ : ∃ cs, dirLookup fs.dirs n = some cs := by
      cases h : dirLookup fs.dirs n with
      | none => exact absurd h (hdirs n (by simp))
      | some cs => exact ⟨cs, rfl⟩
    have hd := ((delete_by_name_spec fs bs n hidx).2 cs hcs).1
    have hstep : deleteAll fs (n :: rest) = deleteAll
        (⟨some ⟨bs.filter (fun b => b.directory_name != n)⟩, removeDir fs.dirs n⟩ : Fs)
        rest := deleteAll_cons fs _ n rest hd
    have hnd2 : rest.Nodup := (List.nodup_cons.mp hnd).2
    have hnmem : n ∉ rest := (List.nodup_cons.mp hnd).1
    have hdirs2 : ∀ m ∈ rest,
        dirLookup (removeDir fs.dirs n) m ≠ none := by
      intro m hm
      rw [dirLookup_removeDir]
      have hmn : m ≠ n := fun h => hnmem (h ▸ hm)
      rw [if_neg hmn]
      exact hdirs m (List.mem_cons_of_mem _ hm)
    obtain ⟨h1, h2, h3⟩ := ih ⟨some ⟨bs.filter (fun b => b.directory_name != n)⟩,
      removeDir fs.dirs n⟩ (bs.filter (fun b => b.directory_name != n)) rfl hnd2 hdirs2
    refine ⟨?_, ?_, ?_⟩
    · rw [hstep]
      exact h1
    · rw [hstep, h2]
      congr 1
      congr 1
      rw [List.filter_filter]
      apply List.filter_congr
      intro b hb
      rw [List.contains_cons]
      cases hbn : b.directory_name == n <;>
        cases hbr : rest.contains b.directory_name <;> simp [bne, hbn, hbr]
    · intro m
      rw [hstep, h3 m, dirLookup_removeDir, List.contains_cons]
      by_cases hmn : m = n
      · subst hmn
        simp
      · have hmn2 : (m == n) = false := by simpa using hmn
        simp [hmn2, hmn]

/-- C8: keep-last retention.  For every state whose catalog has pairwise
distinct names and pairwise distinct creation times, and whose records all have
their storage directory, `delete` with `keep_last = k` succeeds; afterwards the
catalog holds exactly the records among the `k` latest-created (the take of the
descending sort), each removed record has its storage directory gone and each
kept record keeps its directory; every kept record is strictly newer than every
removed one; and when `k` is at least the number of records nothing at all is
removed. -/
theorem delete_keep_last_spec (fs : Fs) (bs : List Backup) (k : Nat)
    (hidx : fs.indexFile = some ⟨bs⟩)
    (hnames : (bs.map (fun b => b.directory_name)).Nodup)
    (hdates : (bs.map (fun b => b.created_at)).Nodup)
    (hdirs : ∀ b ∈ bs, dirLookup fs.dirs b.directory_name ≠ none) :
    (delete_keep_last fs k).1 = Except.ok () ∧
    (delete_keep_last fs k).2.indexFile = some ⟨bs.filter (fun b =>
      !((((sortDesc bs).drop k).map (fun c => c.directory_name)).contains
        b.directory_name))⟩ ∧
    (∀ b ∈ bs, (b ∈ (sortDesc bs).take k ↔
      b ∈ ((delete_keep_last fs k).2.indexFile.getD ⟨[]⟩).backups)) ∧
    (∀ b ∈ (sortDesc bs).drop k,
      dirLookup (delete_keep_last fs k).2.dirs b.directory_name = none) ∧
    (∀ b ∈ (sortDesc bs).take k,
      dirLookup (delete_keep_last fs k).2.dirs b.directory_name =
        dirLookup fs.dirs b.directory_name) ∧
    (∀ b ∈ (sortDesc bs).take k, ∀ c ∈ (sortDesc bs).drop k,
      c.created_at < b.created_at) ∧
    (bs.length ≤ k → (delete_keep_last fs k).2 = fs) := by
  have hperm : List.Perm (sortDesc bs) bs := sortDesc_perm bs
  have hsnodup : ((sortDesc bs).map (fun b => b.directory_name)).Nodup :=
    ((hperm.map _).nodup_iff).mpr hnames
  have hdelnodup : (((sortDesc bs).drop k).map (fun c => c.directory_name)).Nodup := by
    rw [List.map_drop]
    exact hsnodup.sublist (List.drop_sublist _ _)
  have hdeldirs : ∀ n ∈ ((sortDesc bs).drop k).map (fun c => c.directory_name),
      dirLookup fs.dirs n ≠ none := by
    intro n hn
    obtain ⟨b, hb, hbn⟩ := List.mem_map.mp hn
    rw [← hbn]
    exact hdirs b (hperm.mem_iff.mp (List.mem_of_mem_drop hb))
  have hunf : delete_keep_last fs k = deleteAll fs
      (((sortDesc bs).drop k).map (fun b => b.directory_name)) := by
    unfold delete_keep_last
    rw [hidx]
  obtain ⟨h1, h2, h3⟩ := deleteAll_run (((sortDesc bs).drop k).map
    (fun b => b.directory_name)) fs bs hidx hdelnodup hdeldirs
  have hsplit : (sortDesc bs).take k ++ (sortDesc bs).drop k = sortDesc bs :=
    List.take_append_drop k (sortDesc bs)
  have hnodupsplit : (((sortDesc bs).take k).map (fun b => b.directory_name) ++
      ((sortDesc bs).drop k).map (fun b => b.directory_name)).Nodup := by
    rw [← List.map_append, hsplit]
    exact hsnodup
  rw [List.nodup_append] at hnodupsplit
  refine ⟨by rw [hunf]; exact h1, by rw [hunf]; exact h2, ?_, ?_, ?_, ?_, ?_⟩
  · intro b hb
    rw [hunf, h2]
    simp only [Option.getD_some]
    rw [List.mem_filter]
    constructor
    · intro htake
      refine ⟨hb, (contains_false_iff _ _).mpr ?_⟩
      exact hnodupsplit.2.2 (List.mem_map_of_mem _ htake)
    · rintro ⟨hbs, hcontains⟩
      have hnot := (contains_false_iff _ _).mp hcontains
      have hbsorted : b ∈ (sortDesc bs).take k ++ (sortDesc bs).drop k := by
        rw [hsplit]
        exact hperm.mem_iff.mpr hbs
      rcases List.mem_append.mp hbsorted with h | h
      · exact h
      · exact absurd (List.mem_map_of_mem _ h) hnot
  · intro b hb
    rw [hunf, h3 b.directory_name,
      if_pos (List.elem_iff.mpr (List.mem_map_of_mem _ hb))]
  · intro b hb
    have hnot : b.directory_name ∉
        ((sortDesc bs).drop k).map (fun c => c.directory_name) :=
      hnodupsplit.2.2 (List.mem_map_of_mem _ hb)
    rw [hunf, h3 b.directory_name, if_neg (fun hc => hnot (List.elem_iff.mp hc))]
  · have hsorted := sortDesc_sorted bs
    rw [← hsplit, List.pairwise_append] at hsorted
    intro b hbt c hcd
    have hle : c.created_at ≤ b.created_at := hsorted.2.2 b hbt c hcd
    have hdn2 : (((sortDesc bs).take k).map (fun b => b.created_at) ++
        ((sortDesc bs).drop k).map (fun b => b.created_at)).Nodup := by
      rw [← List.map_append, hsplit]
      exact ((hperm.map _).nodup_iff).mpr hdates
    rw [List.nodup_append] at hdn2
    have hne2 : c.created_at ≠ b.created_at := by
      intro hEq
      exact absurd (hEq ▸ List.mem_map_of_mem _ hcd)
        (hdn2.2.2 (List.mem_map_of_mem _ hbt))
    exact Nat.lt_of_le_of_ne hle hne2
  · intro hk
    have hdropnil : (sortDesc bs).drop k = [] := by
      apply List.drop_eq_nil_of_le
      rw [hperm.length_eq]
      exact hk
    rw [hunf, hdropnil]
    rfl

/-- Witness for C8: the spec example — dumps 1, 2, 3 created in that order —
with keep-last 2: the call succeeds, only dump-1 is removed from the catalog
and only its directory disappears. -/
theorem delete_keep_last_spec_witness :
    (delete_keep_last (Fs.mk (some ⟨[⟨"dump-1", 1, 100, false, false⟩,
        ⟨"dump-2", 1, 200, false, false⟩, ⟨"dump-3", 1, 300, false, false⟩]⟩)
        [("dump-1", [(1, [1])]), ("dump-2", [(1, [2])]),
          ("dump-3", [(1, [3])])]) 2).1 = Except.ok () ∧
    (delete_keep_last (Fs.mk (some ⟨[⟨"dump-1", 1, 100, false, false⟩,
        ⟨"dump-2", 1, 200, false, false⟩, ⟨"dump-3", 1, 300, false, false⟩]⟩)
        [("dump-1", [(1, [1])]), ("dump-2", [(1, [2])]),
          ("dump-3", [(1, [3])])]) 2).2.indexFile =
      some ⟨[⟨"dump-2", 1, 200, false, false⟩, ⟨"dump-3", 1, 300, false, false⟩]⟩ ∧
    dirLookup ((delete_keep_last (Fs.mk (some ⟨[⟨"dump-1", 1, 100, false, false⟩,
        ⟨"dump-2", 1, 200, false, false⟩, ⟨"dump-3", 1, 300, false, false⟩]⟩)
        [("dump-1", [(1, [1])]), ("dump-2", [(1, [2])]),
          ("dump-3", [(1, [3])])]) 2).2.dirs) ("dump-1") = none := by
  have h := delete_keep_last_spec (Fs.mk (some ⟨[⟨"dump-1", 1, 100, false, false⟩,
      ⟨"dump-2", 1, 200, false, false⟩, ⟨"dump-3", 1, 300, false, false⟩]⟩)
      [("dump-1", [(1, [1])]), ("dump-2", [(1, [2])]), ("dump-3", [(1, [3])])])
    [⟨"dump-1", 1, 100, false, false⟩, ⟨"dump-2", 1, 200, false, false⟩,
      ⟨"dump-3", 1, 300, false, false⟩] 2 rfl (by decide) (by decide) (by decide)
  refine ⟨h.1, ?_, ?_⟩
  · rw [h.2.1]
    rfl
  · exact h.2.2.2.1 ⟨"dump-1", 1, 100, false, false⟩ (by decide)

end Replibyte
